import Mathlib

/-!
Verification of the sweep repository's pivot ("fractal") tracking core.

The embedding below translates the Python source into Lean:
* prices (the Python floats `high`, `low`, `close`) are modelled as exact
  rationals `ℚ`: the source only compares prices (`<`, `>`, `==`) and never
  does arithmetic on them, so the ordered-field structure is all that is used;
* timestamps (`close_time` / `timestamp`, epoch milliseconds) are `ℤ`;
* Python dicts keyed by symbol / interval strings become functions
  `String → String → Option _`;
* Python's stable `list.sort(key=..., reverse=True)` becomes the stable
  `List.insertionSort` with the corresponding descending key comparator.
-/

/-- A candle, keeping only the fields the verified code reads:
`close_time` (epoch ms; also the `timestamp` key of the last-confirmed
candle after `normalize_candles` copies it to `close_time`), `high`, `low`,
`close`. -/
structure Candle where
  close_time : Int
  high : Rat
  low : Rat
  close : Rat
deriving DecidableEq, Repr

/-- A high pivot as built by `detect_fractals`:
`{"type": "HFractal", "time": mid["close_time"], "high": mid["high"]}`
(the constant `"type"` tag carries no information and is dropped). -/
structure HFractal where
  time : Int
  high : Rat
deriving DecidableEq, Repr

/-- A low pivot as built by `detect_fractals`:
`{"type": "LFractal", "time": mid["close_time"], "low": mid["low"]}`. -/
structure LFractal where
  time : Int
  low : Rat
deriving DecidableEq, Repr

/-- Comparator for `active_H.sort(key=lambda x: (x["time"], x["high"]), reverse=True)`:
descending lexicographic order on the key `(time, high)`.  The Python call is a
stable sort by this descending key; it is embedded as the stable
`List.insertionSort` over this relation. -/
def hKeyLe (a b : HFractal) : Prop :=
  b.time < a.time ∨ (a.time = b.time ∧ b.high ≤ a.high)

/-- Comparator for `active_L.sort(key=lambda x: (x["time"], -x["low"]), reverse=True)`:
descending lexicographic order on the key `(time, -low)`, i.e. within one
timestamp the smaller low sorts first. -/
def lKeyLe (a b : LFractal) : Prop :=
  b.time < a.time ∨ (a.time = b.time ∧ a.low ≤ b.low)

instance : DecidableRel hKeyLe := fun a b => by unfold hKeyLe; infer_instance

instance : DecidableRel lKeyLe := fun a b => by unfold lKeyLe; infer_instance

instance : IsTotal HFractal hKeyLe :=
  ⟨fun a b => by
    unfold hKeyLe
    rcases lt_trichotomy a.time b.time with h | h | h
    · exact Or.inr (Or.inl h)
    · rcases le_total a.high b.high with h' | h'
      · exact Or.inr (Or.inr ⟨h.symm, h'⟩)
      · exact Or.inl (Or.inr ⟨h, h'⟩)
    · exact Or.inl (Or.inl h)⟩

instance : IsTrans HFractal hKeyLe :=
  ⟨fun a b c hab hbc => by
    unfold hKeyLe at *
    rcases hab with h1 | ⟨h1, h1'⟩ <;> rcases hbc with h2 | ⟨h2, h2'⟩
    · exact Or.inl (h2.trans h1)
    · exact Or.inl (h2 ▸ h1)
    · exact Or.inl (h1 ▸ h2)
    · exact Or.inr ⟨h1.trans h2, h2'.trans h1'⟩⟩

instance : IsTotal LFractal lKeyLe :=
  ⟨fun a b => by
    unfold lKeyLe
    rcases lt_trichotomy a.time b.time with h | h | h
    · exact Or.inr (Or.inl h)
    · rcases le_total a.low b.low with h' | h'
      · exact Or.inl (Or.inr ⟨h, h'⟩)
      · exact Or.inr (Or.inr ⟨h.symm, h'⟩)
    · exact Or.inl (Or.inl h)⟩

instance : IsTrans LFractal lKeyLe :=
  ⟨fun a b c hab hbc => by
    unfold lKeyLe at *
    rcases hab with h1 | ⟨h1, h1'⟩ <;> rcases hbc with h2 | ⟨h2, h2'⟩
    · exact Or.inl (h2.trans h1)
    · exact Or.inl (h2 ▸ h1)
    · exact Or.inl (h1 ▸ h2)
    · exact Or.inr ⟨h1.trans h2, h1'.trans h2'⟩⟩

/-- The break test used both by `detect_fractals`' activity filter and by
`update_storage`'s removal filter:
`any(c["high"] > f["high"] for c in candles if c["close_time"] > f["time"])`. -/
def brokenHBy (candles : List Candle) (f : HFractal) : Bool :=
  candles.any fun c => decide (f.time < c.close_time ∧ f.high < c.high)

/-- Symmetric break test for low pivots:
`any(c["low"] < f["low"] for c in candles if c["close_time"] > f["time"])`. -/
def brokenLBy (candles : List Candle) (f : LFractal) : Bool :=
  candles.any fun c => decide (f.time < c.close_time ∧ c.low < f.low)

/-- The candidate high pivots of `detect_fractals` (the `H_fractals` list,
before the activity filter): for each `i in range(n, len(candles) - n)`,
with `left = candles[i-n:i]` and `right = candles[i+1:i+n+1]`, emit a pivot
when `all(mid["high"] > c["high"] for c in left+right)`. -/
def hCandidates (candles : List Candle) (n : Nat) : List HFractal :=
  (List.range' n (candles.length - 2 * n)).filterMap fun i =>
    match candles[i]? with
    | some mid =>
      let left := (candles.drop (i - n)).take n
      let right := (candles.drop (i + 1)).take n
      if (left ++ right).all (fun c => decide (c.high < mid.high)) then
        some ⟨mid.close_time, mid.high⟩
      else none
    | none => none

/-- The candidate low pivots of `detect_fractals` (the `L_fractals` list):
emitted when `all(mid["low"] < c["low"] for c in left+right)`. -/
def lCandidates (candles : List Candle) (n : Nat) : List LFractal :=
  (List.range' n (candles.length - 2 * n)).filterMap fun i =>
    match candles[i]? with
    | some mid =>
      let left := (candles.drop (i - n)).take n
      let right := (candles.drop (i + 1)).take n
      if (left ++ right).all (fun c => decide (mid.low < c.low)) then
        some ⟨mid.close_time, mid.low⟩
      else none
    | none => none

/-- `modules/fractals.py: detect_fractals(candles, fractal_window)`.
Computes candidate pivots with `n = (fractal_window - 1) // 2`, keeps only
the active ones (not broken by any strictly later candle of the same input),
and sorts both sides newest-first with the source's tie-breaks. -/
def detect_fractals (candles : List Candle) (fractal_window : Nat) :
    List HFractal × List LFractal :=
  let n := (fractal_window - 1) / 2
  let H_fractals := hCandidates candles n
  let L_fractals := lCandidates candles n
  let active_H := H_fractals.filter fun f => !(brokenHBy candles f)
  let active_L := L_fractals.filter fun f => !(brokenLBy candles f)
  (active_H.insertionSort hKeyLe, active_L.insertionSort lKeyLe)

example :
    detect_fractals
      [⟨1, 10, 9, 9⟩, ⟨2, 12, 10, 11⟩, ⟨3, 9, 7, 8⟩, ⟨4, 12, 10, 11⟩, ⟨5, 10, 8, 9⟩]
      5 = ([], [⟨3, 7⟩]) := by decide

example :
    detect_fractals
      [⟨1, 1, 0, 0⟩, ⟨2, 5, 1, 2⟩, ⟨3, 2, 1, 1⟩] 3 = ([⟨2, 5⟩], []) := by decide

/-- The `{"H": [...], "L": [...]}` record stored per (symbol, interval). -/
structure IntervalSets where
  H : List HFractal
  L : List LFractal
deriving DecidableEq, Repr

/-- The metadata record of the store:
`{"last_full_scan": ..., "last_update_time": ..., "last_candle_close_time": ...}`.
The two wall-clock ISO strings are kept abstract; `last_candle_close_time` is
an epoch-ms integer or absent. -/
structure Metadata where
  last_full_scan : Option String
  last_update_time : Option String
  last_candle_close_time : Option Int
deriving DecidableEq, Repr

/-- The JSON store: a dict from symbol to a dict from interval to the pivot
sets, plus the metadata record.  The nested dicts are modelled as a total
function returning `none` for absent keys. -/
structure Store where
  data : String → String → Option IntervalSets
  metadata : Metadata

/-- The `{"H": [], "L": []}` entry created on first touch of a
(symbol, interval) pair. -/
def emptySets : IntervalSets := ⟨[], []⟩

/-- Read the pivot sets of a (symbol, interval), defaulting to empty sets —
the view `update_storage` has after its `if symbol not in storage / if
interval not in storage[symbol]` initialisation. -/
def Store.sets (st : Store) (symbol interval : String) : IntervalSets :=
  (st.data symbol interval).getD emptySets

/-- The shape of `update_storage`'s duplicate-avoiding append loops:
`for f in news: if not any(sameKey f existing for existing in stored):
stored.append(f)`, with `sameKey` the (time, value) identity test. -/
def dedupFold {α : Type} (sameKey : α → α → Bool)
    (existing news : List α) : List α :=
  news.foldl
    (fun acc f => if acc.any (sameKey f) then acc else acc ++ [f])
    existing

/-- The duplicate-avoiding append loop of `update_storage` for high pivots:
`for f in H_new: if not any(existing["time"] == f["time"] and existing["high"]
== f["high"] for existing in stored): stored.append(f)`. -/
def dedupAppendH (existing news : List HFractal) : List HFractal :=
  dedupFold (fun f e => decide (e.time = f.time ∧ e.high = f.high))
    existing news

/-- The duplicate-avoiding append loop of `update_storage` for low pivots. -/
def dedupAppendL (existing news : List LFractal) : List LFractal :=
  dedupFold (fun f e => decide (e.time = f.time ∧ e.low = f.low))
    existing news

/-- The in-place dict assignment `storage[symbol][interval] = {...}` (used
by `update_storage` and `handle_htf_match`), as a functional store update. -/
def htfWriteSets (st : Store) (symbol interval : String)
    (sets : IntervalSets) : Store :=
  { st with
    data := fun s i =>
      if s = symbol ∧ i = interval then some sets else st.data s i }

theorem htfWriteSets_data_self (st : Store) (symbol interval : String)
    (sets : IntervalSets) :
    (htfWriteSets st symbol interval sets).data symbol interval = some sets := by
  show (if symbol = symbol ∧ interval = interval then some sets else _) = _
  rw [if_pos ⟨rfl, rfl⟩]

theorem htfWriteSets_data_ne (st : Store) (symbol interval : String)
    (sets : IntervalSets) (s i : String) (h : s ≠ symbol ∨ i ≠ interval) :
    (htfWriteSets st symbol interval sets).data s i = st.data s i := by
  show (if s = symbol ∧ i = interval then some sets else st.data s i) = _
  rw [if_neg]
  rintro ⟨h1, h2⟩
  rcases h with h | h
  · exact h h1
  · exact h h2

/-- `core/fractal_storage.py: update_storage(storage, symbol, interval,
candles, fractal_window)`.  Detects fresh pivots, drops stored pivots broken
by a strictly later candle of the batch, appends the fresh pivots avoiding
(time, value) duplicates, and re-sorts newest first. -/
def update_storage (storage : Store) (symbol interval : String)
    (candles : List Candle) (fractal_window : Nat) : Store :=
  let freshly := detect_fractals candles fractal_window
  let old := (storage.data symbol interval).getD emptySets
  let keptH := old.H.filter fun f => !(brokenHBy candles f)
  let keptL := old.L.filter fun f => !(brokenLBy candles f)
  let H2 := dedupAppendH keptH freshly.1
  let L2 := dedupAppendL keptL freshly.2
  let sets : IntervalSets := ⟨H2.insertionSort hKeyLe, L2.insertionSort lKeyLe⟩
  htfWriteSets storage symbol interval sets

/-- The breakout event record built by `check_breakouts` (all keys of the
returned dict except the redundant formatting inputs). -/
structure Breakout where
  symbol : String
  interval : String
  type : String
  fractal_side : String
  fractal_value : Rat
  fractal_time : Int
  candle_high : Rat
  candle_low : Rat
  candle_close : Rat
  candle_time : Int
  distance : Int
deriving DecidableEq, Repr

/-- Python's `max(broken_h, key=lambda f: f["high"])` on the nonempty list
`f0 :: rest`: keeps the current maximum and replaces it only on a strictly
greater key, so the first maximal element wins. -/
def pyMaxH (f0 : HFractal) (rest : List HFractal) : HFractal :=
  rest.foldl (fun acc f => if acc.high < f.high then f else acc) f0

/-- Python's `min(broken_l, key=lambda f: f["low"])` on the nonempty list
`f0 :: rest`: the first minimal element wins. -/
def pyMinL (f0 : LFractal) (rest : List LFractal) : LFractal :=
  rest.foldl (fun acc f => if f.low < acc.low then f else acc) f0

/-- The `distance` field of a breakout:
`int((candle_time - target_fractal["time"]) / (interval_seconds * 1000))`.
Python divides exact integers as floats and `int()` truncates toward zero;
in exact integer arithmetic that is truncating division `Int.tdiv`. -/
def breakout_distance (candle_time fractal_time interval_seconds : Int) : Int :=
  Int.tdiv (candle_time - fractal_time) (interval_seconds * 1000)

/-- `modules/breakouts.py: check_breakouts(symbol, interval, H_fractals,
L_fractals, candle, tz, interval_map)`.  The unused `tz` argument is dropped;
`interval_map` is the interval → seconds dict as a function. -/
def check_breakouts (symbol interval : String) (H_fractals : List HFractal)
    (L_fractals : List LFractal) (candle : Candle)
    (interval_map : String → Int) : Option Breakout :=
  let candle_high := candle.high
  let candle_low := candle.low
  let candle_close := candle.close
  let candle_time := candle.close_time
  let interval_seconds := interval_map interval
  match H_fractals.filter (fun f => decide (f.high < candle_high)) with
  | f0 :: rest =>
    let target_fractal := pyMaxH f0 rest
    let breakout_type :=
      if target_fractal.high < candle_close then "HConfirm" else "HSweep"
    some
      { symbol := symbol, interval := interval, type := breakout_type,
        fractal_side := "H", fractal_value := target_fractal.high,
        fractal_time := target_fractal.time, candle_high := candle_high,
        candle_low := candle_low, candle_close := candle_close,
        candle_time := candle_time,
        distance := breakout_distance candle_time target_fractal.time interval_seconds }
  | [] =>
    match L_fractals.filter (fun f => decide (candle_low < f.low)) with
    | f0 :: rest =>
      let target_fractal := pyMinL f0 rest
      let breakout_type :=
        if candle_close < target_fractal.low then "LConfirm" else "LSweep"
      some
        { symbol := symbol, interval := interval, type := breakout_type,
          fractal_side := "L", fractal_value := target_fractal.low,
          fractal_time := target_fractal.time, candle_high := candle_high,
          candle_low := candle_low, candle_close := candle_close,
          candle_time := candle_time,
          distance := breakout_distance candle_time target_fractal.time interval_seconds }
    | [] => none

/-- The body of `handle_htf_match`'s loop over `higher_intervals`, written as
structural recursion over the interval list.  For each interval that has an
entry for the symbol and whose sets contain the `ftype` side, the pivots of
that side whose stored value equals `fractal_value` are filtered out (an
`"H"` pivot has no `"low"` key, so `f.get("low") != fractal_value` is the
Python comparison `None != float`, which always holds, and symmetrically for
`"L"` pivots); the interval is recorded when the filtered list got shorter. -/
def handleHtfGo (symbol : String) (fractal_value : Rat) (ftype : String) :
    Store → List String → Store × List String
  | st, [] => (st, [])
  | st, interval :: rest =>
    match st.data symbol interval with
    | none => handleHtfGo symbol fractal_value ftype st rest
    | some sets =>
      if ftype = "H" then
        let newH := sets.H.filter fun f => decide (f.high ≠ fractal_value)
        let r := handleHtfGo symbol fractal_value ftype
          (htfWriteSets st symbol interval ⟨newH, sets.L⟩) rest
        (r.1, (if newH.length ≠ sets.H.length then [interval] else []) ++ r.2)
      else if ftype = "L" then
        let newL := sets.L.filter fun f => decide (f.low ≠ fractal_value)
        let r := handleHtfGo symbol fractal_value ftype
          (htfWriteSets st symbol interval ⟨sets.H, newL⟩) rest
        (r.1, (if newL.length ≠ sets.L.length then [interval] else []) ++ r.2)
      else handleHtfGo symbol fractal_value ftype st rest

/-- `core/fractal_storage.py: handle_htf_match(storage, symbol, breakout,
higher_intervals)` — removes higher-timeframe pivots whose value exactly
equals the breakout's `fractal_value` on the side `fractal_side`, and reports
the intervals where something was removed, in iteration order. -/
def handle_htf_match (storage : Store) (symbol : String) (breakout : Breakout)
    (higher_intervals : List String) : Store × List String :=
  handleHtfGo symbol breakout.fractal_value breakout.fractal_side storage
    higher_intervals

/-- The scan modes of `StorageManager.startup`. -/
inductive ScanMode where
  | FullScan
  | RecoveryScan
  | Skip
deriving DecidableEq, Repr

/-- The decision taken by `core/storage_manager.py: StorageManager.startup`:
full scan when `force_full or downtime is None or downtime > history_limit`,
else a recovery scan when `downtime > int(base_interval.rstrip("m"))`, else
skip (live updates only).  `downtime` is the runner-computed elapsed minutes
since `last_candle_close_time`, or `none` when that field is absent. -/
def startup_decision (force_full : Bool) (downtime : Option Int)
    (history_limit : Int) (base_interval_minutes : Int) : ScanMode :=
  match downtime with
  | none => ScanMode.FullScan
  | some d =>
    if force_full || decide (history_limit < d) then ScanMode.FullScan
    else if decide (base_interval_minutes < d) then ScanMode.RecoveryScan
    else ScanMode.Skip

/-- The `force_full` decision of `main.py: ensure_storage`, over the already
parsed quantities it branches on.  Times are epoch milliseconds;
`last_full_scan` is `none` when the metadata field is absent (the unparseable
case, which also forces a full scan, is folded into `none`).  Case 1 fires on
an empty store or a missing `last_full_scan`; case 2 on a scan older than 24
hours; case 3 (`if not force_full and last_candle_ts:`, where a zero
timestamp is falsy) on `gap_minutes > history_limit * base_interval_minutes`
with `gap_minutes` the float `(now - last_candle_dt).total_seconds() / 60`. -/
def ensure_storage_force_full (storage_nonempty : Bool)
    (last_full_scan : Option Int) (last_candle_close_time : Option Int)
    (now_ms : Int) (history_limit : Int) (base_interval_minutes : Int) : Bool :=
  let ff :=
    if !storage_nonempty || last_full_scan.isNone then true
    else
      match last_full_scan with
      | some lfs => decide (24 * 3600 * 1000 < now_ms - lfs)
      | none => true
  match last_candle_close_time with
  | some ts =>
    if !ff && ts != 0 then
      let gap_minutes : Rat := (now_ms - ts : Int) / 60000
      if decide ((history_limit * base_interval_minutes : Int) < gap_minutes)
      then true else ff
    else ff
  | none => ff

/-! ## Theorems -/

/-- C10: `update_storage` modifies at most the (symbol, interval) entry it
was called for: the pivot sets stored under any other (symbol, interval) key
and the metadata record are returned unchanged. -/
theorem update_storage_frame (storage : Store) (symbol interval : String)
    (candles : List Candle) (w : Nat) (s i : String)
    (h : s ≠ symbol ∨ i ≠ interval) :
    (update_storage storage symbol interval candles w).data s i
        = storage.data s i
    ∧ (update_storage storage symbol interval candles w).metadata
        = storage.metadata := by
  refine ⟨?_, rfl⟩
  show (if s = symbol ∧ i = interval then _ else storage.data s i)
      = storage.data s i
  rw [if_neg]
  rintro ⟨h1, h2⟩
  rcases h with h | h
  · exact h h1
  · exact h h2

/-- Witness for C10 at a concrete store, symbol and interval. -/
theorem update_storage_frame_witness :
    (update_storage ⟨fun _ _ => none, ⟨none, none, none⟩⟩ "BTCUSDT" "15m"
        [⟨1, 1, 0, 0⟩, ⟨2, 5, 1, 2⟩, ⟨3, 2, 1, 1⟩] 3).data "ETHUSDT" "15m"
      = (⟨fun _ _ => none, ⟨none, none, none⟩⟩ : Store).data "ETHUSDT" "15m"
    ∧ (update_storage ⟨fun _ _ => none, ⟨none, none, none⟩⟩ "BTCUSDT" "15m"
        [⟨1, 1, 0, 0⟩, ⟨2, 5, 1, 2⟩, ⟨3, 2, 1, 1⟩] 3).metadata
      = (⟨fun _ _ => none, ⟨none, none, none⟩⟩ : Store).metadata :=
  update_storage_frame _ "BTCUSDT" "15m" _ 3 "ETHUSDT" "15m"
    (Or.inl (by decide))

/-- C9 (amended): the async scan planner (`StorageManager.startup` with the
runner-computed downtime) selects FullScan whenever downtime is undefined,
and — for a nonnegative history depth and a base interval of at least one
minute — whenever downtime exceeds the history depth expressed in minutes
(`history_limit * base_interval_minutes`); the synchronous planner
(`ensure_storage`) forces a full scan whenever downtime is defined, nonzero
and exceeds `history_limit * base_interval_minutes` minutes.  (An undefined
downtime does not by itself force a full scan in `ensure_storage`; see the
counterexample.) -/
theorem scan_planner_fullscan (ff sn : Bool) (lfs lct : Option Int)
    (d now ts limit bim : Int) :
    startup_decision ff none limit bim = ScanMode.FullScan
    ∧ (0 ≤ limit → 1 ≤ bim → limit * bim < d →
        startup_decision ff (some d) limit bim = ScanMode.FullScan)
    ∧ (lct = some ts → ts ≠ 0 →
        ((limit * bim : Int) : Rat) < ((now - ts : Int) : Rat) / 60000 →
        ensure_storage_force_full sn lfs lct now limit bim = true) := by
  refine ⟨rfl, ?_, ?_⟩
  · intro h0 h1 hd
    have hld : limit < d := lt_of_le_of_lt (le_mul_of_one_le_right h0 h1) hd
    simp [startup_decision, hld]
  · intro hlct hts hgap
    subst hlct
    unfold ensure_storage_force_full
    simp only
    set ffv := (if !sn || lfs.isNone then true
      else match lfs with
        | some lfs0 => decide (24 * 3600 * 1000 < now - lfs0)
        | none => true) with hffv
    cases hv : ffv with
    | true => simp
    | false =>
      have hts' : (ts != 0) = true := by simpa using hts
      have hgap' : (limit : Rat) * bim < ((now : Rat) - ts) / 60000 := by
        push_cast at hgap
        exact hgap
      simp [hv, hts', hgap']

/-- Witness for C9: concrete instantiations exercising all three branches. -/
theorem scan_planner_fullscan_witness :
    startup_decision false none 100 15 = ScanMode.FullScan
    ∧ startup_decision false (some 1501) 100 15 = ScanMode.FullScan
    ∧ ensure_storage_force_full true (some 1000000) (some 500)
        100000000 100 15 = true := by
  have h := scan_planner_fullscan false true (some 1000000) (some 500)
    1501 100000000 500 100 15
  exact ⟨h.1, h.2.1 (by decide) (by decide) (by decide),
    h.2.2 rfl (by decide) (by norm_num)⟩

/-- C9 counterexample: the synchronous planner `ensure_storage` does not
select FullScan on an undefined downtime.  With a nonempty store, a full scan
recorded one minute ago and no `last_candle_close_time` (downtime undefined),
`force_full` stays false, contradicting the claim that an undefined downtime
always yields FullScan. -/
theorem ensure_storage_undefined_downtime_counterexample :
    ensure_storage_force_full true (some 1000000) none 1060000 100 15
      = false := by decide

/-- C2: a pivot detected by `detect_fractals` (a member of the candidate
list) is present in the returned active sets if and only if no candle of the
same input with a strictly later `close_time` has a high above the pivot's
high (resp. a low below the pivot's low). -/
theorem detect_active_iff (candles : List Candle) (w : Nat) (f : HFractal)
    (g : LFractal) :
    (f ∈ hCandidates candles ((w - 1) / 2) →
      (f ∈ (detect_fractals candles w).1 ↔
        ¬ ∃ c ∈ candles, f.time < c.close_time ∧ f.high < c.high))
    ∧ (g ∈ lCandidates candles ((w - 1) / 2) →
      (g ∈ (detect_fractals candles w).2 ↔
        ¬ ∃ c ∈ candles, g.time < c.close_time ∧ c.low < g.low)) := by
  constructor
  · intro hf
    rw [show (detect_fractals candles w).1
        = ((hCandidates candles ((w - 1) / 2)).filter
            fun f => !(brokenHBy candles f)).insertionSort hKeyLe from rfl]
    rw [List.mem_insertionSort, List.mem_filter]
    simp [hf, brokenHBy]
  · intro hg
    rw [show (detect_fractals candles w).2
        = ((lCandidates candles ((w - 1) / 2)).filter
            fun g => !(brokenLBy candles g)).insertionSort lKeyLe from rfl]
    rw [List.mem_insertionSort, List.mem_filter]
    simp [hg, brokenLBy]

/-- Witness for C2 at a concrete input: the high pivot at time 2 is active,
the low pivot at time 3 is not (the candle at time 5 undercuts it). -/
theorem detect_active_iff_witness :
    ((⟨2, 5⟩ : HFractal) ∈
        (detect_fractals
          [⟨1, 1, 3, 1⟩, ⟨2, 5, 2, 2⟩, ⟨3, 2, 1, 1⟩, ⟨4, 3, 2, 2⟩, ⟨5, 4, 0, 1⟩]
          3).1 ↔
      ¬ ∃ c ∈ [⟨1, 1, 3, 1⟩, ⟨2, 5, 2, 2⟩, ⟨3, 2, 1, 1⟩, ⟨4, 3, 2, 2⟩,
          (⟨5, 4, 0, 1⟩ : Candle)],
        (⟨2, 5⟩ : HFractal).time < c.close_time
          ∧ (⟨2, 5⟩ : HFractal).high < c.high)
    ∧ ((⟨3, 1⟩ : LFractal) ∈
        (detect_fractals
          [⟨1, 1, 3, 1⟩, ⟨2, 5, 2, 2⟩, ⟨3, 2, 1, 1⟩, ⟨4, 3, 2, 2⟩, ⟨5, 4, 0, 1⟩]
          3).2 ↔
      ¬ ∃ c ∈ [⟨1, 1, 3, 1⟩, ⟨2, 5, 2, 2⟩, ⟨3, 2, 1, 1⟩, ⟨4, 3, 2, 2⟩,
          (⟨5, 4, 0, 1⟩ : Candle)],
        (⟨3, 1⟩ : LFractal).time < c.close_time
          ∧ c.low < (⟨3, 1⟩ : LFractal).low) :=
  ⟨(detect_active_iff
      [⟨1, 1, 3, 1⟩, ⟨2, 5, 2, 2⟩, ⟨3, 2, 1, 1⟩, ⟨4, 3, 2, 2⟩, ⟨5, 4, 0, 1⟩]
      3 ⟨2, 5⟩ ⟨3, 1⟩).1 (by decide),
    (detect_active_iff
      [⟨1, 1, 3, 1⟩, ⟨2, 5, 2, 2⟩, ⟨3, 2, 1, 1⟩, ⟨4, 3, 2, 2⟩, ⟨5, 4, 0, 1⟩]
      3 ⟨2, 5⟩ ⟨3, 1⟩).2 (by decide)⟩

/-- Truncating division is never below floor division for a positive
divisor. -/
theorem fdiv_le_tdiv (a : Int) {b : Int} (hb : 0 < b) :
    a.fdiv b ≤ a.tdiv b := by
  rcases le_or_lt 0 a with ha | ha
  · rw [Int.fdiv_eq_tdiv ha hb.le]
  · rw [Int.fdiv_eq_ediv _ hb.le]
    have hna : 0 ≤ -a := by omega
    have h1 : (-a).tdiv b = (-a) / b := Int.tdiv_eq_ediv hna hb.le
    have h2 : a.tdiv b = -((-a) / b) := by
      rw [← h1, Int.neg_tdiv, Int.neg_neg]
    rw [h2]
    have hq : (-a) / b * b ≤ -a := Int.ediv_mul_le (-a) (by omega)
    have : a / b < -((-a) / b) + 1 := by
      rw [Int.ediv_lt_iff_lt_mul hb]
      have : (-((-a) / b) + 1) * b = -((-a) / b * b) + b := by ring
      rw [this]
      linarith
    omega

/-- C8: the distance reported by a breakout returned by `check_breakouts` is
the (truncating) integer division of `candle_time - fractal_time` by the
interval duration in milliseconds (`interval_map interval * 1000`), and for a
positive interval duration it is at least the number of completed intervals
between the pivot's close and the candle's close (the floor division of the
same quantities). -/
theorem breakout_distance_correct (symbol interval : String)
    (H_fractals : List HFractal) (L_fractals : List LFractal) (candle : Candle)
    (interval_map : String → Int) (b : Breakout)
    (hb : check_breakouts symbol interval H_fractals L_fractals candle
        interval_map = some b) :
    b.distance
      = Int.tdiv (b.candle_time - b.fractal_time) (interval_map interval * 1000)
    ∧ (0 < interval_map interval →
        Int.fdiv (b.candle_time - b.fractal_time) (interval_map interval * 1000)
          ≤ b.distance) := by
  have key : b.distance = breakout_distance b.candle_time b.fractal_time
      (interval_map interval) := by
    simp only [check_breakouts] at hb
    cases hH : H_fractals.filter (fun f => decide (f.high < candle.high)) with
    | cons f0 rest =>
      rw [hH] at hb
      simp only [Option.some.injEq] at hb
      subst hb
      rfl
    | nil =>
      rw [hH] at hb
      cases hL : L_fractals.filter (fun f => decide (candle.low < f.low)) with
      | cons f0 rest =>
        rw [hL] at hb
        simp only [Option.some.injEq] at hb
        subst hb
        rfl
      | nil =>
        rw [hL] at hb
        simp at hb
  refine ⟨key, fun hpos => ?_⟩
  rw [key]
  exact fdiv_le_tdiv _ (by omega)

/-- Witness for C8 on a concrete breakout: a candle at time 100 over a high
pivot at time 1 with 15-minute (900 s) intervals. -/
theorem breakout_distance_correct_witness :
    ((check_breakouts "BTCUSDT" "15m" [⟨1, 5⟩] [] ⟨2000000, 7, 1, 6⟩
        (fun _ => 900)).getD
        ⟨"", "", "", "", 0, 0, 0, 0, 0, 0, 0⟩).distance
      = Int.tdiv
        (((check_breakouts "BTCUSDT" "15m" [⟨1, 5⟩] [] ⟨2000000, 7, 1, 6⟩
            (fun _ => 900)).getD
            ⟨"", "", "", "", 0, 0, 0, 0, 0, 0, 0⟩).candle_time
          - ((check_breakouts "BTCUSDT" "15m" [⟨1, 5⟩] [] ⟨2000000, 7, 1, 6⟩
            (fun _ => 900)).getD
            ⟨"", "", "", "", 0, 0, 0, 0, 0, 0, 0⟩).fractal_time)
        ((fun _ : String => (900 : Int)) "15m" * 1000)
    ∧ (0 < (fun _ : String => (900 : Int)) "15m" →
        Int.fdiv
          (((check_breakouts "BTCUSDT" "15m" [⟨1, 5⟩] [] ⟨2000000, 7, 1, 6⟩
              (fun _ => 900)).getD
              ⟨"", "", "", "", 0, 0, 0, 0, 0, 0, 0⟩).candle_time
            - ((check_breakouts "BTCUSDT" "15m" [⟨1, 5⟩] [] ⟨2000000, 7, 1, 6⟩
              (fun _ => 900)).getD
              ⟨"", "", "", "", 0, 0, 0, 0, 0, 0, 0⟩).fractal_time)
          ((fun _ : String => (900 : Int)) "15m" * 1000)
          ≤ ((check_breakouts "BTCUSDT" "15m" [⟨1, 5⟩] [] ⟨2000000, 7, 1, 6⟩
              (fun _ => 900)).getD
              ⟨"", "", "", "", 0, 0, 0, 0, 0, 0, 0⟩).distance) :=
  breakout_distance_correct "BTCUSDT" "15m" [⟨1, 5⟩] [] ⟨2000000, 7, 1, 6⟩
    (fun _ => 900) _ (by decide)

/-- Python's `max(..., key=f["high"])` returns an element of the list whose
key is maximal. -/
theorem pyMaxH_spec (f0 : HFractal) (rest : List HFractal) :
    pyMaxH f0 rest ∈ f0 :: rest
    ∧ ∀ x ∈ f0 :: rest, x.high ≤ (pyMaxH f0 rest).high := by
  induction rest generalizing f0 with
  | nil => exact ⟨List.mem_singleton_self f0, by simp [pyMaxH]⟩
  | cons f rest ih =>
    have hfold : pyMaxH f0 (f :: rest)
        = pyMaxH (if f0.high < f.high then f else f0) rest := by
      simp only [pyMaxH, List.foldl_cons]
    set g := if f0.high < f.high then f else f0 with hg
    have hmem := (ih g).1
    have hge := (ih g).2
    constructor
    · rw [hfold]
      rcases List.mem_cons.mp hmem with h | h
      · rw [h, hg]
        split
        · exact List.mem_cons_of_mem _ (List.mem_cons_self _ _)
        · exact List.mem_cons_self _ _
      · exact List.mem_cons_of_mem _ (List.mem_cons_of_mem _ h)
    · intro x hx
      rw [hfold]
      have hgge : g ∈ g :: rest := List.mem_cons_self _ _
      have hf0 : f0.high ≤ g.high := by
        rw [hg]; split <;> simp_all [le_of_lt]
      have hfle : f.high ≤ g.high := by
        rw [hg]; split
        · exact le_refl _
        · exact le_of_not_lt (by assumption)
      rcases List.mem_cons.mp hx with h | h
      · exact h ▸ le_trans hf0 (hge g hgge)
      · rcases List.mem_cons.mp h with h' | h'
        · exact h' ▸ le_trans hfle (hge g hgge)
        · exact hge x (List.mem_cons_of_mem _ h')

/-- Python's `min(..., key=f["low"])` returns an element of the list whose
key is minimal. -/
theorem pyMinL_spec (f0 : LFractal) (rest : List LFractal) :
    pyMinL f0 rest ∈ f0 :: rest
    ∧ ∀ x ∈ f0 :: rest, (pyMinL f0 rest).low ≤ x.low := by
  induction rest generalizing f0 with
  | nil => exact ⟨List.mem_singleton_self f0, by simp [pyMinL]⟩
  | cons f rest ih =>
    have hfold : pyMinL f0 (f :: rest)
        = pyMinL (if f.low < f0.low then f else f0) rest := by
      simp only [pyMinL, List.foldl_cons]
    set g := if f.low < f0.low then f else f0 with hg
    have hmem := (ih g).1
    have hge := (ih g).2
    constructor
    · rw [hfold]
      rcases List.mem_cons.mp hmem with h | h
      · rw [h, hg]
        split
        · exact List.mem_cons_of_mem _ (List.mem_cons_self _ _)
        · exact List.mem_cons_self _ _
      · exact List.mem_cons_of_mem _ (List.mem_cons_of_mem _ h)
    · intro x hx
      rw [hfold]
      have hgge : g ∈ g :: rest := List.mem_cons_self _ _
      have hf0 : g.low ≤ f0.low := by
        rw [hg]; split <;> simp_all [le_of_lt]
      have hfle : g.low ≤ f.low := by
        rw [hg]; split
        · exact le_refl _
        · exact le_of_not_lt (by assumption)
      rcases List.mem_cons.mp hx with h | h
      · exact h ▸ le_trans (hge g hgge) hf0
      · rcases List.mem_cons.mp h with h' | h'
        · exact h' ▸ le_trans (hge g hgge) hfle
        · exact hge x (List.mem_cons_of_mem _ h')

/-- C4: `check_breakouts` returns at most one breakout.  When some active
High pivot is strictly exceeded by `candle.high`, it returns a High breakout
whose value is the greatest among the exceeded High pivots, classified
HConfirm exactly when `candle.close` also exceeds that value and HSweep
otherwise; Low pivots are considered only when no High pivot is broken, and
then the least undercut Low value is selected with the LConfirm/LSweep
classification; when neither side is broken, no breakout is returned. -/
theorem check_breakouts_characterisation (symbol interval : String)
    (H_fractals : List HFractal) (L_fractals : List LFractal) (candle : Candle)
    (interval_map : String → Int) :
    match check_breakouts symbol interval H_fractals L_fractals candle
        interval_map with
    | none =>
        (∀ f ∈ H_fractals, ¬ f.high < candle.high)
        ∧ (∀ g ∈ L_fractals, ¬ candle.low < g.low)
    | some b =>
        (b.fractal_side = "H"
          ∧ (∃ f ∈ H_fractals, f.high < candle.high ∧ b.fractal_value = f.high
              ∧ b.fractal_time = f.time)
          ∧ (∀ f ∈ H_fractals, f.high < candle.high → f.high ≤ b.fractal_value)
          ∧ b.type
              = (if b.fractal_value < candle.close then "HConfirm" else "HSweep"))
        ∨ (b.fractal_side = "L"
          ∧ (∀ f ∈ H_fractals, ¬ f.high < candle.high)
          ∧ (∃ g ∈ L_fractals, candle.low < g.low ∧ b.fractal_value = g.low
              ∧ b.fractal_time = g.time)
          ∧ (∀ g ∈ L_fractals, candle.low < g.low → b.fractal_value ≤ g.low)
          ∧ b.type
              = (if candle.close < b.fractal_value then "LConfirm" else "LSweep")) := by
  simp only [check_breakouts]
  cases hH : H_fractals.filter (fun f => decide (f.high < candle.high)) with
  | cons f0 rest =>
    refine Or.inl ⟨rfl, ?_, ?_, rfl⟩
    · have hmem := (pyMaxH_spec f0 rest).1
      rw [← hH] at hmem
      have := List.mem_filter.mp hmem
      exact ⟨pyMaxH f0 rest, this.1, by simpa using this.2, rfl, rfl⟩
    · intro f hf hlt
      have hmem : f ∈ f0 :: rest := by
        rw [← hH]
        exact List.mem_filter.mpr ⟨hf, by simpa using hlt⟩
      exact (pyMaxH_spec f0 rest).2 f hmem
  | nil =>
    have hHnone : ∀ f ∈ H_fractals, ¬ f.high < candle.high := by
      intro f hf hlt
      have : f ∈ H_fractals.filter (fun f => decide (f.high < candle.high)) :=
        List.mem_filter.mpr ⟨hf, by simpa using hlt⟩
      rw [hH] at this
      simp at this
    cases hL : L_fractals.filter (fun g => decide (candle.low < g.low)) with
    | cons g0 rest =>
      refine Or.inr ⟨rfl, hHnone, ?_, ?_, rfl⟩
      · have hmem := (pyMinL_spec g0 rest).1
        rw [← hL] at hmem
        have := List.mem_filter.mp hmem
        exact ⟨pyMinL g0 rest, this.1, by simpa using this.2, rfl, rfl⟩
      · intro g hg hlt
        have hmem : g ∈ g0 :: rest := by
          rw [← hL]
          exact List.mem_filter.mpr ⟨hg, by simpa using hlt⟩
        exact (pyMinL_spec g0 rest).2 g hmem
    | nil =>
      refine ⟨hHnone, ?_⟩
      intro g hg hlt
      have : g ∈ L_fractals.filter (fun g => decide (candle.low < g.low)) :=
        List.mem_filter.mpr ⟨hg, by simpa using hlt⟩
      rw [hL] at this
      simp at this

/-- Does the stored High set of (symbol, iv) contain a pivot whose value
equals `v`?  (The condition under which `handle_htf_match` removes something
and reports the interval as matched, for an `"H"`-side breakout.) -/
def htfMatchedH (st : Store) (symbol : String) (v : Rat) (iv : String) : Bool :=
  match st.data symbol iv with
  | some sets => sets.H.any fun f => f.high == v
  | none => false

/-- Low-side analogue of `htfMatchedH`. -/
def htfMatchedL (st : Store) (symbol : String) (v : Rat) (iv : String) : Bool :=
  match st.data symbol iv with
  | some sets => sets.L.any fun f => f.low == v
  | none => false


/-- A filter dropping the elements with key value `v` shortens the list
exactly when some element has key value `v`. -/
theorem filter_ne_length_iff_any_eq {α : Type} (l : List α) (key : α → Rat)
    (v : Rat) :
    ((l.filter fun f => decide (key f ≠ v)).length ≠ l.length)
      ↔ (l.any fun f => key f == v) = true := by
  constructor
  · intro h
    by_contra hany
    apply h
    apply List.filter_length_eq_length.mpr
    intro a ha
    simp only [List.any_eq_true, not_exists, not_and] at hany
    have := hany a ha
    simpa using this
  · intro hany hlen
    obtain ⟨a, ha, he⟩ := List.any_eq_true.mp hany
    have := List.filter_length_eq_length.mp hlen a ha
    simp only [beq_iff_eq] at he
    simp [he] at this

theorem handleHtfGo_cons_none (symbol : String) (v : Rat) (ftype : String)
    (st : Store) (iv : String) (rest : List String)
    (hd : st.data symbol iv = none) :
    handleHtfGo symbol v ftype st (iv :: rest)
      = handleHtfGo symbol v ftype st rest := by
  simp only [handleHtfGo]
  rw [hd]

theorem handleHtfGo_cons_some_H (symbol : String) (v : Rat) (st : Store)
    (iv : String) (rest : List String) (sets : IntervalSets)
    (hd : st.data symbol iv = some sets) :
    handleHtfGo symbol v "H" st (iv :: rest)
      = ((handleHtfGo symbol v "H"
            (htfWriteSets st symbol iv
              ⟨sets.H.filter fun f => decide (f.high ≠ v), sets.L⟩) rest).1,
          (if (sets.H.filter fun f => decide (f.high ≠ v)).length ≠ sets.H.length
            then [iv] else [])
            ++ (handleHtfGo symbol v "H"
                (htfWriteSets st symbol iv
                  ⟨sets.H.filter fun f => decide (f.high ≠ v), sets.L⟩) rest).2) := by
  simp only [handleHtfGo]
  rw [hd]
  rfl

theorem handleHtfGo_cons_some_L (symbol : String) (v : Rat) (st : Store)
    (iv : String) (rest : List String) (sets : IntervalSets)
    (hd : st.data symbol iv = some sets) :
    handleHtfGo symbol v "L" st (iv :: rest)
      = ((handleHtfGo symbol v "L"
            (htfWriteSets st symbol iv
              ⟨sets.H, sets.L.filter fun f => decide (f.low ≠ v)⟩) rest).1,
          (if (sets.L.filter fun f => decide (f.low ≠ v)).length ≠ sets.L.length
            then [iv] else [])
            ++ (handleHtfGo symbol v "L"
                (htfWriteSets st symbol iv
                  ⟨sets.H, sets.L.filter fun f => decide (f.low ≠ v)⟩) rest).2) := by
  simp only [handleHtfGo]
  rw [hd]
  rfl

/-- Behaviour of the `handle_htf_match` loop on the `"H"` side over a
duplicate-free interval list: the matched intervals are exactly the listed
intervals whose stored High set holds a pivot with value `v` (in list
order); every listed interval's entry gets exactly its High pivots of value
`v` removed, keeping its Low set; every other key of the store is
untouched. -/
theorem handleHtfGo_H_spec (symbol : String) (v : Rat) (st : Store)
    (his : List String) (hnd : his.Nodup) :
    (handleHtfGo symbol v "H" st his).2 = his.filter (htfMatchedH st symbol v)
    ∧ (∀ iv ∈ his,
        (handleHtfGo symbol v "H" st his).1.data symbol iv
          = match st.data symbol iv with
            | some sets =>
              some ⟨sets.H.filter fun f => decide (f.high ≠ v), sets.L⟩
            | none => none)
    ∧ (∀ s i, (s = symbol → i ∉ his) →
        (handleHtfGo symbol v "H" st his).1.data s i = st.data s i) := by
  induction his generalizing st with
  | nil =>
    exact ⟨rfl, fun iv h => absurd h (List.not_mem_nil iv), fun s i _ => rfl⟩
  | cons iv rest ih =>
    have hiv : iv ∉ rest := (List.nodup_cons.mp hnd).1
    have hrest : rest.Nodup := (List.nodup_cons.mp hnd).2
    cases hd : st.data symbol iv with
    | none =>
      obtain ⟨ih1, ih2, ih3⟩ := ih st hrest
      refine ⟨?_, ?_, ?_⟩
      · rw [handleHtfGo_cons_none _ _ _ _ _ _ hd, ih1, List.filter_cons]
        have hm : htfMatchedH st symbol v iv = false := by
          simp [htfMatchedH, hd]
        simp [hm]
      · intro iv' hiv'
        rcases List.mem_cons.mp hiv' with h | h
        · subst h
          rw [handleHtfGo_cons_none _ _ _ _ _ _ hd,
            ih3 symbol iv' (fun _ => hiv), hd]
        · rw [handleHtfGo_cons_none _ _ _ _ _ _ hd]
          exact ih2 iv' h
      · intro s i hsi
        rw [handleHtfGo_cons_none _ _ _ _ _ _ hd]
        exact ih3 s i (fun hs => fun hm => (hsi hs) (List.mem_cons_of_mem _ hm))
    | some sets =>
      obtain ⟨ih1, ih2, ih3⟩ := ih
        (htfWriteSets st symbol iv
          ⟨sets.H.filter fun f => decide (f.high ≠ v), sets.L⟩) hrest
      have hrw := handleHtfGo_cons_some_H symbol v st iv rest sets hd
      have hfr : ∀ i', i' ≠ iv →
          (htfWriteSets st symbol iv
            ⟨sets.H.filter fun f => decide (f.high ≠ v), sets.L⟩).data symbol i'
            = st.data symbol i' :=
        fun i' hne => htfWriteSets_data_ne _ _ _ _ _ _ (Or.inr hne)
      refine ⟨?_, ?_, ?_⟩
      · rw [hrw]
        show (if _ then [iv] else []) ++ _ = _
        rw [ih1, List.filter_cons]
        have hfc : rest.filter
            (htfMatchedH (htfWriteSets st symbol iv
              ⟨sets.H.filter fun f => decide (f.high ≠ v), sets.L⟩) symbol v)
            = rest.filter (htfMatchedH st symbol v) := by
          apply List.filter_congr
          intro i' hi'
          have hne : i' ≠ iv := fun h => hiv (h ▸ hi')
          simp only [htfMatchedH]
          rw [hfr i' hne]
        rw [hfc]
        have hcond : ((sets.H.filter fun f => decide (f.high ≠ v)).length
            ≠ sets.H.length) ↔ htfMatchedH st symbol v iv = true := by
          rw [filter_ne_length_iff_any_eq sets.H (fun f => f.high) v]
          simp only [htfMatchedH, hd]
        by_cases hc : htfMatchedH st symbol v iv = true
        · rw [if_pos (hcond.mpr hc), hc]
          rfl
        · have hc' : htfMatchedH st symbol v iv = false := by simpa using hc
          rw [if_neg (fun hne => hc (hcond.mp hne)), hc']
          rfl
      · intro iv' hiv'
        rcases List.mem_cons.mp hiv' with h | h
        · subst h
          rw [hrw]
          show (handleHtfGo symbol v "H" _ rest).1.data symbol iv' = _
          rw [ih3 symbol iv' (fun _ => hiv), htfWriteSets_data_self, hd]
        · rw [hrw]
          show (handleHtfGo symbol v "H" _ rest).1.data symbol iv' = _
          rw [ih2 iv' h, hfr iv' (fun hc => hiv (hc ▸ h))]
      · intro s i hsi
        rw [hrw]
        show (handleHtfGo symbol v "H" _ rest).1.data s i = _
        rw [ih3 s i (fun hs => fun hm => (hsi hs) (List.mem_cons_of_mem _ hm))]
        apply htfWriteSets_data_ne
        by_cases hs : s = symbol
        · exact Or.inr (fun hi => (hsi hs) (hi ▸ List.mem_cons_self iv rest))
        · exact Or.inl hs

/-- Low-side analogue of `handleHtfGo_H_spec`. -/
theorem handleHtfGo_L_spec (symbol : String) (v : Rat) (st : Store)
    (his : List String) (hnd : his.Nodup) :
    (handleHtfGo symbol v "L" st his).2 = his.filter (htfMatchedL st symbol v)
    ∧ (∀ iv ∈ his,
        (handleHtfGo symbol v "L" st his).1.data symbol iv
          = match st.data symbol iv with
            | some sets =>
              some ⟨sets.H, sets.L.filter fun f => decide (f.low ≠ v)⟩
            | none => none)
    ∧ (∀ s i, (s = symbol → i ∉ his) →
        (handleHtfGo symbol v "L" st his).1.data s i = st.data s i) := by
  induction his generalizing st with
  | nil =>
    exact ⟨rfl, fun iv h => absurd h (List.not_mem_nil iv), fun s i _ => rfl⟩
  | cons iv rest ih =>
    have hiv : iv ∉ rest := (List.nodup_cons.mp hnd).1
    have hrest : rest.Nodup := (List.nodup_cons.mp hnd).2
    cases hd : st.data symbol iv with
    | none =>
      obtain ⟨ih1, ih2, ih3⟩ := ih st hrest
      refine ⟨?_, ?_, ?_⟩
      · rw [handleHtfGo_cons_none _ _ _ _ _ _ hd, ih1, List.filter_cons]
        have hm : htfMatchedL st symbol v iv = false := by
          simp [htfMatchedL, hd]
        simp [hm]
      · intro iv' hiv'
        rcases List.mem_cons.mp hiv' with h | h
        · subst h
          rw [handleHtfGo_cons_none _ _ _ _ _ _ hd,
            ih3 symbol iv' (fun _ => hiv), hd]
        · rw [handleHtfGo_cons_none _ _ _ _ _ _ hd]
          exact ih2 iv' h
      · intro s i hsi
        rw [handleHtfGo_cons_none _ _ _ _ _ _ hd]
        exact ih3 s i (fun hs => fun hm => (hsi hs) (List.mem_cons_of_mem _ hm))
    | some sets =>
      obtain ⟨ih1, ih2, ih3⟩ := ih
        (htfWriteSets st symbol iv
          ⟨sets.H, sets.L.filter fun f => decide (f.low ≠ v)⟩) hrest
      have hrw := handleHtfGo_cons_some_L symbol v st iv rest sets hd
      have hfr : ∀ i', i' ≠ iv →
          (htfWriteSets st symbol iv
            ⟨sets.H, sets.L.filter fun f => decide (f.low ≠ v)⟩).data symbol i'
            = st.data symbol i' :=
        fun i' hne => htfWriteSets_data_ne _ _ _ _ _ _ (Or.inr hne)
      refine ⟨?_, ?_, ?_⟩
      · rw [hrw]
        show (if _ then [iv] else []) ++ _ = _
        rw [ih1, List.filter_cons]
        have hfc : rest.filter
            (htfMatchedL (htfWriteSets st symbol iv
              ⟨sets.H, sets.L.filter fun f => decide (f.low ≠ v)⟩) symbol v)
            = rest.filter (htfMatchedL st symbol v) := by
          apply List.filter_congr
          intro i' hi'
          have hne : i' ≠ iv := fun h => hiv (h ▸ hi')
          simp only [htfMatchedL]
          rw [hfr i' hne]
        rw [hfc]
        have hcond : ((sets.L.filter fun f => decide (f.low ≠ v)).length
            ≠ sets.L.length) ↔ htfMatchedL st symbol v iv = true := by
          rw [filter_ne_length_iff_any_eq sets.L (fun f => f.low) v]
          simp only [htfMatchedL, hd]
        by_cases hc : htfMatchedL st symbol v iv = true
        · rw [if_pos (hcond.mpr hc), hc]
          rfl
        · have hc' : htfMatchedL st symbol v iv = false := by simpa using hc
          rw [if_neg (fun hne => hc (hcond.mp hne)), hc']
          rfl
      · intro iv' hiv'
        rcases List.mem_cons.mp hiv' with h | h
        · subst h
          rw [hrw]
          show (handleHtfGo symbol v "L" _ rest).1.data symbol iv' = _
          rw [ih3 symbol iv' (fun _ => hiv), htfWriteSets_data_self, hd]
        · rw [hrw]
          show (handleHtfGo symbol v "L" _ rest).1.data symbol iv' = _
          rw [ih2 iv' h, hfr iv' (fun hc => hiv (hc ▸ h))]
      · intro s i hsi
        rw [hrw]
        show (handleHtfGo symbol v "L" _ rest).1.data s i = _
        rw [ih3 s i (fun hs => fun hm => (hsi hs) (List.mem_cons_of_mem _ hm))]
        apply htfWriteSets_data_ne
        by_cases hs : s = symbol
        · exact Or.inr (fun hi => (hsi hs) (hi ▸ List.mem_cons_self iv rest))
        · exact Or.inl hs

/-- C5: over a duplicate-free higher-interval list, `handle_htf_match`
removes, from each listed interval that has an entry for the symbol, exactly
the pivots of the side matching `breakout.fractal_side` whose stored value
equals `breakout.fractal_value` (so a near-but-not-equal value is never
removed, and the other side's set is untouched); the matched-interval list
contains, in the order of `higher_intervals`, exactly those listed intervals
from which at least one pivot was removed; all other store entries are
unchanged. -/
theorem handle_htf_match_characterisation (storage : Store) (symbol : String)
    (b : Breakout) (his : List String) (hnd : his.Nodup) :
    (b.fractal_side = "H" →
      (handle_htf_match storage symbol b his).2
          = his.filter (htfMatchedH storage symbol b.fractal_value)
      ∧ (∀ iv ∈ his,
          (handle_htf_match storage symbol b his).1.data symbol iv
            = match storage.data symbol iv with
              | some sets =>
                some ⟨sets.H.filter fun f => decide (f.high ≠ b.fractal_value),
                  sets.L⟩
              | none => none)
      ∧ (∀ s i, (s = symbol → i ∉ his) →
          (handle_htf_match storage symbol b his).1.data s i
            = storage.data s i))
    ∧ (b.fractal_side = "L" →
      (handle_htf_match storage symbol b his).2
          = his.filter (htfMatchedL storage symbol b.fractal_value)
      ∧ (∀ iv ∈ his,
          (handle_htf_match storage symbol b his).1.data symbol iv
            = match storage.data symbol iv with
              | some sets =>
                some ⟨sets.H,
                  sets.L.filter fun f => decide (f.low ≠ b.fractal_value)⟩
              | none => none)
      ∧ (∀ s i, (s = symbol → i ∉ his) →
          (handle_htf_match storage symbol b his).1.data s i
            = storage.data s i)) := by
  constructor
  · intro hside
    unfold handle_htf_match
    rw [hside]
    exact handleHtfGo_H_spec symbol b.fractal_value storage his hnd
  · intro hside
    unfold handle_htf_match
    rw [hside]
    exact handleHtfGo_L_spec symbol b.fractal_value storage his hnd

/-- Witness for C5: a store holding a 4h Low pivot at value 10; an L-side
breakout with `fractal_value = 10` removes it and reports `["4h"]`, while the
near-but-not-equal Low pivot at value 11 survives. -/
theorem handle_htf_match_characterisation_witness :
    (handle_htf_match
        ⟨fun s i => if s = "BTCUSDT" ∧ i = "4h"
            then some ⟨[⟨90, 20⟩], [⟨100, 10⟩, ⟨80, 11⟩]⟩ else none,
          ⟨none, none, none⟩⟩
        "BTCUSDT"
        ⟨"BTCUSDT", "15m", "LSweep", "L", 10, 50, 11, 9, 10, 200, 1⟩
        ["1h", "4h"]).2
      = ["4h"]
    ∧ (handle_htf_match
        ⟨fun s i => if s = "BTCUSDT" ∧ i = "4h"
            then some ⟨[⟨90, 20⟩], [⟨100, 10⟩, ⟨80, 11⟩]⟩ else none,
          ⟨none, none, none⟩⟩
        "BTCUSDT"
        ⟨"BTCUSDT", "15m", "LSweep", "L", 10, 50, 11, 9, 10, 200, 1⟩
        ["1h", "4h"]).1.data "BTCUSDT" "4h"
      = some ⟨[⟨90, 20⟩], [⟨80, 11⟩]⟩ := by
  have h := (handle_htf_match_characterisation
    ⟨fun s i => if s = "BTCUSDT" ∧ i = "4h"
        then some ⟨[⟨90, 20⟩], [⟨100, 10⟩, ⟨80, 11⟩]⟩ else none,
      ⟨none, none, none⟩⟩
    "BTCUSDT"
    ⟨"BTCUSDT", "15m", "LSweep", "L", 10, 50, 11, 9, 10, 200, 1⟩
    ["1h", "4h"] (by decide)).2 rfl
  constructor
  · rw [h.1]
    decide
  · rw [h.2.1 "4h" (by decide)]
    decide

theorem dedupFold_cons {α : Type} (sameKey : α → α → Bool) (ex : List α)
    (g : α) (rest : List α) :
    dedupFold sameKey ex (g :: rest)
      = dedupFold sameKey (if ex.any (sameKey g) then ex else ex ++ [g]) rest :=
  rfl

/-- Every element of the dedup-append result comes from the existing list or
from the appended batch. -/
theorem mem_dedupFold {α : Type} (sameKey : α → α → Bool) (ex news : List α)
    (f : α) (h : f ∈ dedupFold sameKey ex news) : f ∈ ex ∨ f ∈ news := by
  induction news generalizing ex with
  | nil => exact Or.inl h
  | cons g rest ih =>
    rw [dedupFold_cons] at h
    rcases ih _ h with h' | h'
    · split at h'
      · exact Or.inl h'
      · rcases List.mem_append.mp h' with h'' | h''
        · exact Or.inl h''
        · exact Or.inr (List.mem_cons.mpr (Or.inl (List.mem_singleton.mp h'')))
    · exact Or.inr (List.mem_cons_of_mem _ h')

/-- The dedup-append only ever appends: the existing list is kept. -/
theorem subset_dedupFold {α : Type} (sameKey : α → α → Bool) (ex news : List α)
    (e : α) (h : e ∈ ex) : e ∈ dedupFold sameKey ex news := by
  induction news generalizing ex with
  | nil => exact h
  | cons g rest ih =>
    rw [dedupFold_cons]
    apply ih
    split
    · exact h
    · exact List.mem_append_left _ h

/-- After dedup-appending, every batch element has a matching element in the
result (itself, or the duplicate that suppressed it). -/
theorem dedupFold_exists_match {α : Type} (sameKey : α → α → Bool)
    (hrefl : ∀ a, sameKey a a = true) (ex news : List α) (f : α)
    (h : f ∈ news) :
    ∃ e ∈ dedupFold sameKey ex news, sameKey f e = true := by
  induction news generalizing ex with
  | nil => cases h
  | cons g rest ih =>
    rw [dedupFold_cons]
    rcases List.mem_cons.mp h with h' | h'
    · subst h'
      cases hc : ex.any (sameKey f) with
      | true =>
        obtain ⟨e, he, hm⟩ := List.any_eq_true.mp hc
        exact ⟨e, by rw [if_pos rfl]; exact subset_dedupFold _ _ _ _ he, hm⟩
      | false =>
        refine ⟨f, ?_, hrefl f⟩
        rw [if_neg Bool.false_ne_true]
        exact subset_dedupFold _ _ _ _
          (List.mem_append_right _ (List.mem_singleton_self f))
    · exact ih _ h'

/-- When every batch element already has a match in the existing list, the
dedup-append is the identity. -/
theorem dedupFold_eq_self {α : Type} (sameKey : α → α → Bool)
    (ex news : List α) (h : ∀ f ∈ news, ex.any (sameKey f) = true) :
    dedupFold sameKey ex news = ex := by
  induction news with
  | nil => rfl
  | cons g rest ih =>
    rw [dedupFold_cons, h g (List.mem_cons_self g rest)]
    exact ih fun f hf => h f (List.mem_cons_of_mem _ hf)

/-- The dedup-append preserves any pairwise relation implied by the failure
of the match test (in particular pairwise (time, value) distinctness). -/
theorem dedupFold_pairwise {α : Type} (sameKey : α → α → Bool)
    (R : α → α → Prop) (hcompat : ∀ e b, sameKey b e = false → R e b)
    (ex news : List α) (hex : ex.Pairwise R) :
    (dedupFold sameKey ex news).Pairwise R := by
  induction news generalizing ex with
  | nil => exact hex
  | cons g rest ih =>
    rw [dedupFold_cons]
    apply ih
    cases hc : ex.any (sameKey g) with
    | true => rw [if_pos rfl]; exact hex
    | false =>
      rw [if_neg Bool.false_ne_true]
      show (ex ++ [g]).Pairwise R
      rw [List.pairwise_append]
      refine ⟨hex, List.pairwise_singleton R g, ?_⟩
      intro e he b hb
      rw [List.mem_singleton.mp hb]
      exact hcompat e g (by
        have := List.any_eq_false.mp hc e he
        simpa using this)

/-- The entry `update_storage` writes for its (symbol, interval): surviving
stored pivots dedup-appended with the freshly detected ones, re-sorted. -/
theorem update_storage_data_self (st : Store) (symbol interval : String)
    (B : List Candle) (w : Nat) :
    (update_storage st symbol interval B w).data symbol interval
      = some
        ⟨(dedupAppendH
            (((st.data symbol interval).getD emptySets).H.filter
              fun f => !(brokenHBy B f))
            (detect_fractals B w).1).insertionSort hKeyLe,
          (dedupAppendL
            (((st.data symbol interval).getD emptySets).L.filter
              fun f => !(brokenLBy B f))
            (detect_fractals B w).2).insertionSort lKeyLe⟩ :=
  htfWriteSets_data_self _ _ _ _

/-- Membership in the sorted H side of a freshly produced entry descends to
the dedup-append stage. -/
theorem mem_update_storage_H (st : Store) (symbol interval : String)
    (B : List Candle) (w : Nat) (p : HFractal)
    (hp : p ∈ ((update_storage st symbol interval B w).sets symbol interval).H) :
    p ∈ ((st.data symbol interval).getD emptySets).H.filter
        (fun f => !(brokenHBy B f))
      ∨ p ∈ (detect_fractals B w).1 := by
  rw [Store.sets, update_storage_data_self] at hp
  simp only [Option.getD_some] at hp
  rw [List.mem_insertionSort] at hp
  exact mem_dedupFold _ _ _ _ hp

/-- Low-side analogue of `mem_update_storage_H`. -/
theorem mem_update_storage_L (st : Store) (symbol interval : String)
    (B : List Candle) (w : Nat) (q : LFractal)
    (hq : q ∈ ((update_storage st symbol interval B w).sets symbol interval).L) :
    q ∈ ((st.data symbol interval).getD emptySets).L.filter
        (fun f => !(brokenLBy B f))
      ∨ q ∈ (detect_fractals B w).2 := by
  rw [Store.sets, update_storage_data_self] at hq
  simp only [Option.getD_some] at hq
  rw [List.mem_insertionSort] at hq
  exact mem_dedupFold _ _ _ _ hq

/-- A high pivot broken by some candle of the batch never appears in the
entry `update_storage` writes: it is dropped from the stored set and the
detector's activity filter excludes it from the fresh set. -/
theorem broken_not_mem_update_storage_H (st : Store) (symbol interval : String)
    (B : List Candle) (w : Nat) (p : HFractal)
    (hbroken : brokenHBy B p = true) :
    p ∉ ((update_storage st symbol interval B w).sets symbol interval).H := by
  intro hp
  rcases mem_update_storage_H st symbol interval B w p hp with h | h
  · have := (List.mem_filter.mp h).2
    rw [hbroken] at this
    exact Bool.false_ne_true this
  · rw [show (detect_fractals B w).1
        = ((hCandidates B ((w - 1) / 2)).filter
            fun f => !(brokenHBy B f)).insertionSort hKeyLe from rfl,
      List.mem_insertionSort, List.mem_filter] at h
    rw [hbroken] at h
    exact Bool.false_ne_true h.2

/-- Low-side analogue of `broken_not_mem_update_storage_H`. -/
theorem broken_not_mem_update_storage_L (st : Store) (symbol interval : String)
    (B : List Candle) (w : Nat) (q : LFractal)
    (hbroken : brokenLBy B q = true) :
    q ∉ ((update_storage st symbol interval B w).sets symbol interval).L := by
  intro hq
  rcases mem_update_storage_L st symbol interval B w q hq with h | h
  · have := (List.mem_filter.mp h).2
    rw [hbroken] at this
    exact Bool.false_ne_true this
  · rw [show (detect_fractals B w).2
        = ((lCandidates B ((w - 1) / 2)).filter
            fun f => !(brokenLBy B f)).insertionSort lKeyLe from rfl,
      List.mem_insertionSort, List.mem_filter] at h
    rw [hbroken] at h
    exact Bool.false_ne_true h.2

/-- C6: invalidation is monotonic.  A pivot that some candle of batch `B`
(strictly later than the pivot and beyond its value) broke — which is
exactly why `update_storage` removed it — is absent from the (symbol,
interval) pivot set after a subsequent `update_storage` call with any batch
`B2` containing all candles of `B`, applied to the store produced by the
first reconciliation. -/
theorem update_storage_invalidation_monotonic (store : Store)
    (symbol interval : String) (B B2 : List Candle) (w w2 : Nat)
    (p : HFractal) (q : LFractal) (hsub : ∀ c ∈ B, c ∈ B2)
    (hbreakH : ∃ c ∈ B, p.time < c.close_time ∧ p.high < c.high)
    (hbreakL : ∃ c ∈ B, q.time < c.close_time ∧ c.low < q.low) :
    p ∉ ((update_storage (update_storage store symbol interval B w) symbol
        interval B2 w2).sets symbol interval).H
    ∧ q ∉ ((update_storage (update_storage store symbol interval B w) symbol
        interval B2 w2).sets symbol interval).L := by
  constructor
  · obtain ⟨c, hc, hct, hch⟩ := hbreakH
    apply broken_not_mem_update_storage_H
    rw [brokenHBy, List.any_eq_true]
    exact ⟨c, hsub c hc, by simp [hct, hch]⟩
  · obtain ⟨c, hc, hct, hcl⟩ := hbreakL
    apply broken_not_mem_update_storage_L
    rw [brokenLBy, List.any_eq_true]
    exact ⟨c, hsub c hc, by simp [hct, hcl]⟩

/-- Witness for C6: the high pivot (t=2, high=5) and low pivot (t=3, low=1)
are broken by candles of `B`; after reconciling with `B` and then with the
superset `B2`, neither reappears. -/
theorem update_storage_invalidation_monotonic_witness :
    (⟨2, 5⟩ : HFractal) ∉ ((update_storage
        (update_storage ⟨fun _ _ => none, ⟨none, none, none⟩⟩ "BTCUSDT" "15m"
          [⟨4, 6, 2, 3⟩] 3) "BTCUSDT" "15m"
        [⟨4, 6, 2, 3⟩, ⟨5, 3, 2, 2⟩] 3).sets "BTCUSDT" "15m").H
    ∧ (⟨3, 3⟩ : LFractal) ∉ ((update_storage
        (update_storage ⟨fun _ _ => none, ⟨none, none, none⟩⟩ "BTCUSDT" "15m"
          [⟨4, 6, 2, 3⟩] 3) "BTCUSDT" "15m"
        [⟨4, 6, 2, 3⟩, ⟨5, 3, 2, 2⟩] 3).sets "BTCUSDT" "15m").L :=
  update_storage_invalidation_monotonic
    ⟨fun _ _ => none, ⟨none, none, none⟩⟩ "BTCUSDT" "15m"
    [⟨4, 6, 2, 3⟩] [⟨4, 6, 2, 3⟩, ⟨5, 3, 2, 2⟩] 3 3 ⟨2, 5⟩ ⟨3, 3⟩
    (by decide) (by decide) (by decide)

/-- The two Python slices `candles[i-n:i]` and `candles[i+1:i+n+1]` satisfy a
pointwise boolean test exactly when every candle at an index in
`[i-n, i) ∪ (i, i+n]` satisfies it (for `n ≤ i` and `i + n < len`). -/
theorem slice_all_iff (candles : List Candle) (n i : Nat) (hin : n ≤ i)
    (_hilen : i + n < candles.length) (pr : Candle → Bool) :
    (((candles.drop (i - n)).take n ++ (candles.drop (i + 1)).take n).all pr
        = true)
      ↔ ∀ j c, candles[j]? = some c →
          ((i - n ≤ j ∧ j < i) ∨ (i < j ∧ j ≤ i + n)) → pr c = true := by
  rw [List.all_append, Bool.and_eq_true, List.all_eq_true, List.all_eq_true]
  constructor
  · rintro ⟨hl, hr⟩ j c hjc hj
    rcases hj with ⟨h1, h2⟩ | ⟨h1, h2⟩
    · apply hl
      rw [List.mem_iff_getElem?]
      refine ⟨j - (i - n), ?_⟩
      rw [List.getElem?_take_of_lt (by omega), List.getElem?_drop]
      rwa [show i - n + (j - (i - n)) = j by omega]
    · apply hr
      rw [List.mem_iff_getElem?]
      refine ⟨j - (i + 1), ?_⟩
      rw [List.getElem?_take_of_lt (by omega), List.getElem?_drop]
      rwa [show i + 1 + (j - (i + 1)) = j by omega]
  · intro h
    constructor
    · intro c hc
      rw [List.mem_iff_getElem?] at hc
      obtain ⟨k, hk⟩ := hc
      have hkn : k < n := by
        by_contra hkn
        rw [List.getElem?_take_eq_none (by omega)] at hk
        cases hk
      rw [List.getElem?_take_of_lt hkn, List.getElem?_drop] at hk
      exact h (i - n + k) c hk (Or.inl ⟨by omega, by omega⟩)
    · intro c hc
      rw [List.mem_iff_getElem?] at hc
      obtain ⟨k, hk⟩ := hc
      have hkn : k < n := by
        by_contra hkn
        rw [List.getElem?_take_eq_none (by omega)] at hk
        cases hk
      rw [List.getElem?_take_of_lt hkn, List.getElem?_drop] at hk
      exact h (i + 1 + k) c hk (Or.inr ⟨by omega, by omega⟩)

/-- Characterisation of the candidate High pivots: exactly the pivots built
from an index `i ∈ [n, len − n)` whose candle's high strictly exceeds the
high of each of the `n` candles on either side. -/
theorem mem_hCandidates_iff (candles : List Candle) (n : Nat) (p : HFractal) :
    p ∈ hCandidates candles n
      ↔ ∃ i mid, n ≤ i ∧ i + n < candles.length ∧ candles[i]? = some mid
          ∧ p = ⟨mid.close_time, mid.high⟩
          ∧ ∀ j c, candles[j]? = some c →
              ((i - n ≤ j ∧ j < i) ∨ (i < j ∧ j ≤ i + n)) →
              c.high < mid.high := by
  unfold hCandidates
  rw [List.mem_filterMap]
  constructor
  · rintro ⟨i, hi, hfi⟩
    rw [List.mem_range'_1] at hi
    have hilen : i + n < candles.length := by omega
    cases hm : candles[i]? with
    | none => rw [hm] at hfi; cases hfi
    | some mid =>
      rw [hm] at hfi
      simp only at hfi
      split at hfi
      · refine ⟨i, mid, hi.1, hilen, hm, ?_, ?_⟩
        · cases hfi; rfl
        · intro j c hjc hj
          have hall := (slice_all_iff candles n i hi.1 hilen
            (fun c => decide (c.high < mid.high))).mp (by assumption)
          simpa using hall j c hjc hj
      · cases hfi
  · rintro ⟨i, mid, hin, hilen, hm, hp, hcond⟩
    refine ⟨i, ?_, ?_⟩
    · rw [List.mem_range'_1]
      omega
    · rw [hm]
      simp only
      rw [if_pos]
      · rw [hp]
      · exact (slice_all_iff candles n i hin hilen
          (fun c => decide (c.high < mid.high))).mpr
          (fun j c hjc hj => by simpa using hcond j c hjc hj)

/-- Low-side analogue of `mem_hCandidates_iff`. -/
theorem mem_lCandidates_iff (candles : List Candle) (n : Nat) (q : LFractal) :
    q ∈ lCandidates candles n
      ↔ ∃ i mid, n ≤ i ∧ i + n < candles.length ∧ candles[i]? = some mid
          ∧ q = ⟨mid.close_time, mid.low⟩
          ∧ ∀ j c, candles[j]? = some c →
              ((i - n ≤ j ∧ j < i) ∨ (i < j ∧ j ≤ i + n)) →
              mid.low < c.low := by
  unfold lCandidates
  rw [List.mem_filterMap]
  constructor
  · rintro ⟨i, hi, hfi⟩
    rw [List.mem_range'_1] at hi
    have hilen : i + n < candles.length := by omega
    cases hm : candles[i]? with
    | none => rw [hm] at hfi; cases hfi
    | some mid =>
      rw [hm] at hfi
      simp only at hfi
      split at hfi
      · refine ⟨i, mid, hi.1, hilen, hm, ?_, ?_⟩
        · cases hfi; rfl
        · intro j c hjc hj
          have hall := (slice_all_iff candles n i hi.1 hilen
            (fun c => decide (mid.low < c.low))).mp (by assumption)
          simpa using hall j c hjc hj
      · cases hfi
  · rintro ⟨i, mid, hin, hilen, hm, hq, hcond⟩
    refine ⟨i, ?_, ?_⟩
    · rw [List.mem_range'_1]
      omega
    · rw [hm]
      simp only
      rw [if_pos]
      · rw [hq]
      · exact (slice_all_iff candles n i hin hilen
          (fun c => decide (mid.low < c.low))).mpr
          (fun j c hjc hj => by simpa using hcond j c hjc hj)

/-- C1: for an odd window ≥ 3 and `n = (window − 1) / 2`, `detect_fractals`
emits a High (resp. Low) pivot candidate exactly for the indices
`i ∈ [n, len − n)` whose candle's high (low) is strictly more extreme than
that of each of the `n` candles on either side; every pivot it returns
originates from such an index; and input shorter than the window (in
particular, empty input) yields empty pivot sets. -/
theorem detect_fractals_emission (candles : List Candle) (w : Nat)
    (p : HFractal) (q : LFractal) (hodd : Odd w) (hw : 3 ≤ w) :
    (p ∈ hCandidates candles ((w - 1) / 2)
      ↔ ∃ i mid, (w - 1) / 2 ≤ i ∧ i + (w - 1) / 2 < candles.length
          ∧ candles[i]? = some mid ∧ p = ⟨mid.close_time, mid.high⟩
          ∧ ∀ j c, candles[j]? = some c →
              ((i - (w - 1) / 2 ≤ j ∧ j < i) ∨ (i < j ∧ j ≤ i + (w - 1) / 2)) →
              c.high < mid.high)
    ∧ (q ∈ lCandidates candles ((w - 1) / 2)
      ↔ ∃ i mid, (w - 1) / 2 ≤ i ∧ i + (w - 1) / 2 < candles.length
          ∧ candles[i]? = some mid ∧ q = ⟨mid.close_time, mid.low⟩
          ∧ ∀ j c, candles[j]? = some c →
              ((i - (w - 1) / 2 ≤ j ∧ j < i) ∨ (i < j ∧ j ≤ i + (w - 1) / 2)) →
              mid.low < c.low)
    ∧ (p ∈ (detect_fractals candles w).1 →
        ∃ i mid, (w - 1) / 2 ≤ i ∧ i + (w - 1) / 2 < candles.length
          ∧ candles[i]? = some mid ∧ p = ⟨mid.close_time, mid.high⟩)
    ∧ (q ∈ (detect_fractals candles w).2 →
        ∃ i mid, (w - 1) / 2 ≤ i ∧ i + (w - 1) / 2 < candles.length
          ∧ candles[i]? = some mid ∧ q = ⟨mid.close_time, mid.low⟩)
    ∧ (candles.length < w → detect_fractals candles w = ([], [])) := by
  refine ⟨mem_hCandidates_iff candles _ p, mem_lCandidates_iff candles _ q,
    ?_, ?_, ?_⟩
  · intro hp
    rw [show (detect_fractals candles w).1
        = ((hCandidates candles ((w - 1) / 2)).filter
            fun f => !(brokenHBy candles f)).insertionSort hKeyLe from rfl,
      List.mem_insertionSort, List.mem_filter] at hp
    obtain ⟨i, mid, h1, h2, h3, h4, _⟩ :=
      (mem_hCandidates_iff candles _ p).mp hp.1
    exact ⟨i, mid, h1, h2, h3, h4⟩
  · intro hq
    rw [show (detect_fractals candles w).2
        = ((lCandidates candles ((w - 1) / 2)).filter
            fun f => !(brokenLBy candles f)).insertionSort lKeyLe from rfl,
      List.mem_insertionSort, List.mem_filter] at hq
    obtain ⟨i, mid, h1, h2, h3, h4, _⟩ :=
      (mem_lCandidates_iff candles _ q).mp hq.1
    exact ⟨i, mid, h1, h2, h3, h4⟩
  · intro hlen
    obtain ⟨k, hk⟩ := hodd
    have hn0 : candles.length - 2 * ((w - 1) / 2) = 0 := by omega
    have hH : hCandidates candles ((w - 1) / 2) = [] := by
      unfold hCandidates
      rw [hn0]
      rfl
    have hL : lCandidates candles ((w - 1) / 2) = [] := by
      unfold lCandidates
      rw [hn0]
      rfl
    show ((hCandidates candles ((w - 1) / 2)).filter _ |>.insertionSort hKeyLe,
      (lCandidates candles ((w - 1) / 2)).filter _ |>.insertionSort lKeyLe)
      = ([], [])
    rw [hH, hL]
    rfl

/-- Witness for C1 with window 3: the high pivot (t=2, high=5) is emitted at
index 1 of a three-candle input, and a two-candle input is too short. -/
theorem detect_fractals_emission_witness :
    ((⟨2, 5⟩ : HFractal) ∈ hCandidates
        [⟨1, 1, 0, 0⟩, ⟨2, 5, 1, 2⟩, ⟨3, 2, 1, 1⟩] ((3 - 1) / 2)
      ↔ ∃ i mid, (3 - 1) / 2 ≤ i
          ∧ i + (3 - 1) / 2
            < [(⟨1, 1, 0, 0⟩ : Candle), ⟨2, 5, 1, 2⟩, ⟨3, 2, 1, 1⟩].length
          ∧ [(⟨1, 1, 0, 0⟩ : Candle), ⟨2, 5, 1, 2⟩, ⟨3, 2, 1, 1⟩][i]? = some mid
          ∧ (⟨2, 5⟩ : HFractal) = ⟨mid.close_time, mid.high⟩
          ∧ ∀ j c,
              [(⟨1, 1, 0, 0⟩ : Candle), ⟨2, 5, 1, 2⟩, ⟨3, 2, 1, 1⟩][j]? = some c →
              ((i - (3 - 1) / 2 ≤ j ∧ j < i) ∨ (i < j ∧ j ≤ i + (3 - 1) / 2)) →
              c.high < mid.high)
    ∧ ([(⟨1, 1, 0, 0⟩ : Candle), ⟨2, 5, 1, 2⟩].length < 3 →
        detect_fractals [⟨1, 1, 0, 0⟩, ⟨2, 5, 1, 2⟩] 3 = ([], [])) := by
  constructor
  · exact (detect_fractals_emission
      [⟨1, 1, 0, 0⟩, ⟨2, 5, 1, 2⟩, ⟨3, 2, 1, 1⟩] 3 ⟨2, 5⟩ ⟨0, 0⟩
      ⟨1, by omega⟩ (by omega)).1
  · exact (detect_fractals_emission
      [⟨1, 1, 0, 0⟩, ⟨2, 5, 1, 2⟩] 3 ⟨2, 5⟩ ⟨0, 0⟩
      ⟨1, by omega⟩ (by omega)).2.2.2.2

/-- Shape of a candidate emitted at index `i`: it carries that candle's
close_time and high. -/
theorem hCandidate_shape (candles : List Candle) (n i : Nat) (b : HFractal)
    (hb : (match candles[i]? with
          | some mid =>
            if ((candles.drop (i - n)).take n
                ++ (candles.drop (i + 1)).take n).all
                (fun c => decide (c.high < mid.high)) then
              some (⟨mid.close_time, mid.high⟩ : HFractal)
            else none
          | none => none) = some b) :
    ∃ mid, candles[i]? = some mid ∧ b = ⟨mid.close_time, mid.high⟩ := by
  cases hm : candles[i]? with
  | none => rw [hm] at hb; cases hb
  | some mid =>
    rw [hm] at hb
    simp only at hb
    split at hb
    · cases hb
      exact ⟨mid, rfl, rfl⟩
    · cases hb

/-- Low-side analogue of `hCandidate_shape`. -/
theorem lCandidate_shape (candles : List Candle) (n i : Nat) (b : LFractal)
    (hb : (match candles[i]? with
          | some mid =>
            if ((candles.drop (i - n)).take n
                ++ (candles.drop (i + 1)).take n).all
                (fun c => decide (mid.low < c.low)) then
              some (⟨mid.close_time, mid.low⟩ : LFractal)
            else none
          | none => none) = some b) :
    ∃ mid, candles[i]? = some mid ∧ b = ⟨mid.close_time, mid.low⟩ := by
  cases hm : candles[i]? with
  | none => rw [hm] at hb; cases hb
  | some mid =>
    rw [hm] at hb
    simp only at hb
    split at hb
    · cases hb
      exact ⟨mid, rfl, rfl⟩
    · cases hb

/-- For a candle sequence with strictly increasing close_times, the candidate
High pivots are listed with strictly increasing times. -/
theorem hCandidates_pairwise_timeLt (candles : List Candle) (n : Nat)
    (hmono : candles.Pairwise fun a b => a.close_time < b.close_time) :
    (hCandidates candles n).Pairwise fun a b => a.time < b.time := by
  unfold hCandidates
  rw [List.pairwise_filterMap]
  refine (List.pairwise_lt_range' n (candles.length - 2 * n)).imp ?_
  intro i j hij b hb b' hb'
  rw [Option.mem_def] at hb hb'
  obtain ⟨mid, hmid, hbm⟩ := hCandidate_shape candles n i b hb
  obtain ⟨mid', hmid', hbm'⟩ := hCandidate_shape candles n j b' hb'
  obtain ⟨hi, hgi⟩ := List.getElem?_eq_some_iff.mp hmid
  obtain ⟨hj, hgj⟩ := List.getElem?_eq_some_iff.mp hmid'
  have := List.pairwise_iff_getElem.mp hmono i j hi hj hij
  rw [hgi, hgj] at this
  rw [hbm, hbm']
  exact this

/-- Low-side analogue of `hCandidates_pairwise_timeLt`. -/
theorem lCandidates_pairwise_timeLt (candles : List Candle) (n : Nat)
    (hmono : candles.Pairwise fun a b => a.close_time < b.close_time) :
    (lCandidates candles n).Pairwise fun a b => a.time < b.time := by
  unfold lCandidates
  rw [List.pairwise_filterMap]
  refine (List.pairwise_lt_range' n (candles.length - 2 * n)).imp ?_
  intro i j hij b hb b' hb'
  rw [Option.mem_def] at hb hb'
  obtain ⟨mid, hmid, hbm⟩ := lCandidate_shape candles n i b hb
  obtain ⟨mid', hmid', hbm'⟩ := lCandidate_shape candles n j b' hb'
  obtain ⟨hi, hgi⟩ := List.getElem?_eq_some_iff.mp hmid
  obtain ⟨hj, hgj⟩ := List.getElem?_eq_some_iff.mp hmid'
  have := List.pairwise_iff_getElem.mp hmono i j hi hj hij
  rw [hgi, hgj] at this
  rw [hbm, hbm']
  exact this

/-- C7: representation invariant of every PivotSet produced by
`detect_fractals` (on a close_time-strictly-increasing candle sequence, per
the data model) or by `update_storage` (from stored sets without (time,
value) duplicates): the result is ordered newest-first by time with ties
broken by value (highs descending, lows ascending), and contains no two
pivots with equal (time, value). -/
theorem pivotset_invariants (candles : List Candle) (w : Nat) (st : Store)
    (symbol interval : String) (B : List Candle) (w2 : Nat)
    (hmono : candles.Pairwise fun a b => a.close_time < b.close_time)
    (hndH : ((st.data symbol interval).getD emptySets).H.Pairwise
        fun a b => ¬(a.time = b.time ∧ a.high = b.high))
    (hndL : ((st.data symbol interval).getD emptySets).L.Pairwise
        fun a b => ¬(a.time = b.time ∧ a.low = b.low)) :
    ((detect_fractals candles w).1.Pairwise hKeyLe
      ∧ (detect_fractals candles w).1.Pairwise
          (fun a b => ¬(a.time = b.time ∧ a.high = b.high))
      ∧ (detect_fractals candles w).2.Pairwise lKeyLe
      ∧ (detect_fractals candles w).2.Pairwise
          (fun a b => ¬(a.time = b.time ∧ a.low = b.low)))
    ∧ (((update_storage st symbol interval B w2).sets symbol
          interval).H.Pairwise hKeyLe
      ∧ ((update_storage st symbol interval B w2).sets symbol
          interval).H.Pairwise
          (fun a b => ¬(a.time = b.time ∧ a.high = b.high))
      ∧ ((update_storage st symbol interval B w2).sets symbol
          interval).L.Pairwise lKeyLe
      ∧ ((update_storage st symbol interval B w2).sets symbol
          interval).L.Pairwise
          (fun a b => ¬(a.time = b.time ∧ a.low = b.low))) := by
  have hsymH : Symmetric (fun a b : HFractal =>
      ¬(a.time = b.time ∧ a.high = b.high)) := by
    intro a b h hc
    exact h ⟨hc.1.symm, hc.2.symm⟩
  have hsymL : Symmetric (fun a b : LFractal =>
      ¬(a.time = b.time ∧ a.low = b.low)) := by
    intro a b h hc
    exact h ⟨hc.1.symm, hc.2.symm⟩
  refine ⟨⟨List.sorted_insertionSort hKeyLe _, ?_,
      List.sorted_insertionSort lKeyLe _, ?_⟩, ?_⟩
  · have h1 := hCandidates_pairwise_timeLt candles ((w - 1) / 2) hmono
    have h2 : ((hCandidates candles ((w - 1) / 2)).filter
        (fun f => !(brokenHBy candles f))).Pairwise
        (fun a b => ¬(a.time = b.time ∧ a.high = b.high)) :=
      (h1.filter (fun f => !(brokenHBy candles f))).imp
        (fun hlt hc => absurd (hc.1 ▸ hlt) (lt_irrefl _))
    exact h2.perm (List.perm_insertionSort hKeyLe _).symm
      (fun h hc => h ⟨hc.1.symm, hc.2.symm⟩)
  · have h1 := lCandidates_pairwise_timeLt candles ((w - 1) / 2) hmono
    have h2 : ((lCandidates candles ((w - 1) / 2)).filter
        (fun f => !(brokenLBy candles f))).Pairwise
        (fun a b => ¬(a.time = b.time ∧ a.low = b.low)) :=
      (h1.filter (fun f => !(brokenLBy candles f))).imp
        (fun hlt hc => absurd (hc.1 ▸ hlt) (lt_irrefl _))
    exact h2.perm (List.perm_insertionSort lKeyLe _).symm
      (fun h hc => h ⟨hc.1.symm, hc.2.symm⟩)
  · rw [Store.sets, update_storage_data_self]
    simp only [Option.getD_some]
    refine ⟨List.sorted_insertionSort hKeyLe _, ?_,
      List.sorted_insertionSort lKeyLe _, ?_⟩
    · have hded := dedupFold_pairwise
        (fun f e => decide (e.time = f.time ∧ e.high = f.high))
        (fun a b => ¬(a.time = b.time ∧ a.high = b.high))
        (fun e b hm hc => by simp [hc.1, hc.2] at hm)
        (((st.data symbol interval).getD emptySets).H.filter
          fun f => !(brokenHBy B f))
        (detect_fractals B w2).1
        (hndH.filter _)
      exact hded.perm (List.perm_insertionSort hKeyLe _).symm
        (fun h hc => h ⟨hc.1.symm, hc.2.symm⟩)
    · have hded := dedupFold_pairwise
        (fun f e => decide (e.time = f.time ∧ e.low = f.low))
        (fun a b => ¬(a.time = b.time ∧ a.low = b.low))
        (fun e b hm hc => by simp [hc.1, hc.2] at hm)
        (((st.data symbol interval).getD emptySets).L.filter
          fun f => !(brokenLBy B f))
        (detect_fractals B w2).2
        (hndL.filter _)
      exact hded.perm (List.perm_insertionSort lKeyLe _).symm
        (fun h hc => h ⟨hc.1.symm, hc.2.symm⟩)

/-- Witness for C7 at a concrete input: sortedness of a freshly detected H
set and (time, value)-distinctness of a reconciled H set. -/
theorem pivotset_invariants_witness :
    (detect_fractals [⟨1, 1, 0, 0⟩, ⟨2, 5, 1, 2⟩, ⟨3, 2, 1, 1⟩]
        3).1.Pairwise hKeyLe
    ∧ ((update_storage
        ⟨fun s i => if s = "BTCUSDT" ∧ i = "15m"
            then some ⟨[⟨9, 9⟩], [⟨8, 1⟩]⟩ else none,
          ⟨none, none, none⟩⟩
        "BTCUSDT" "15m" [⟨1, 1, 0, 0⟩, ⟨2, 5, 1, 2⟩, ⟨3, 2, 1, 1⟩]
        3).sets "BTCUSDT" "15m").H.Pairwise
        (fun a b => ¬(a.time = b.time ∧ a.high = b.high)) := by
  have h := pivotset_invariants
    [⟨1, 1, 0, 0⟩, ⟨2, 5, 1, 2⟩, ⟨3, 2, 1, 1⟩] 3
    ⟨fun s i => if s = "BTCUSDT" ∧ i = "15m"
        then some ⟨[⟨9, 9⟩], [⟨8, 1⟩]⟩ else none,
      ⟨none, none, none⟩⟩
    "BTCUSDT" "15m" [⟨1, 1, 0, 0⟩, ⟨2, 5, 1, 2⟩, ⟨3, 2, 1, 1⟩] 3
    (by decide) (by decide) (by decide)
  exact ⟨h.1.1, h.2.2.1⟩

/-- A pivot in the freshly detected High set passed the activity filter, so
no candle of the same batch breaks it. -/
theorem detect_unbroken_H (B : List Candle) (w : Nat) (f : HFractal)
    (hf : f ∈ (detect_fractals B w).1) : brokenHBy B f = false := by
  rw [show (detect_fractals B w).1
      = ((hCandidates B ((w - 1) / 2)).filter
          fun f => !(brokenHBy B f)).insertionSort hKeyLe from rfl,
    List.mem_insertionSort, List.mem_filter] at hf
  simpa using hf.2

/-- Low-side analogue of `detect_unbroken_H`. -/
theorem detect_unbroken_L (B : List Candle) (w : Nat) (f : LFractal)
    (hf : f ∈ (detect_fractals B w).2) : brokenLBy B f = false := by
  rw [show (detect_fractals B w).2
      = ((lCandidates B ((w - 1) / 2)).filter
          fun f => !(brokenLBy B f)).insertionSort lKeyLe from rfl,
    List.mem_insertionSort, List.mem_filter] at hf
  simpa using hf.2

/-- Writing back the entry a store already holds is the identity. -/
theorem htfWriteSets_self_eq (st : Store) (symbol interval : String)
    (sets : IntervalSets) (h : st.data symbol interval = some sets) :
    htfWriteSets st symbol interval sets = st := by
  cases st with
  | mk d m =>
    unfold htfWriteSets
    simp only
    congr 1
    funext s i
    by_cases hc : s = symbol ∧ i = interval
    · rw [if_pos hc, hc.1, hc.2, ← h]
    · rw [if_neg hc]

/-- `update_storage` is the identity on a store whose (symbol, interval)
entry already consists of sorted sets that survive the removal filter and
absorb every freshly detected pivot as a (time, value) duplicate. -/
theorem update_storage_stable (s1 : Store) (symbol interval : String)
    (B : List Candle) (w : Nat) (AH : List HFractal) (AL : List LFractal)
    (hdata : s1.data symbol interval = some ⟨AH, AL⟩)
    (hAHu : ∀ f ∈ AH, brokenHBy B f = false)
    (hALu : ∀ f ∈ AL, brokenLBy B f = false)
    (hAHa : ∀ f ∈ (detect_fractals B w).1,
      AH.any (fun e => decide (e.time = f.time ∧ e.high = f.high)) = true)
    (hALa : ∀ f ∈ (detect_fractals B w).2,
      AL.any (fun e => decide (e.time = f.time ∧ e.low = f.low)) = true)
    (hAHs : AH.Pairwise hKeyLe) (hALs : AL.Pairwise lKeyLe) :
    update_storage s1 symbol interval B w = s1 := by
  have h1 : (s1.data symbol interval).getD emptySets = ⟨AH, AL⟩ := by
    rw [hdata]
    rfl
  have hX : (dedupAppendH
      (((s1.data symbol interval).getD emptySets).H.filter
        fun f => !(brokenHBy B f))
      (detect_fractals B w).1).insertionSort hKeyLe = AH := by
    rw [h1]
    show (dedupAppendH (AH.filter fun f => !(brokenHBy B f))
      (detect_fractals B w).1).insertionSort hKeyLe = AH
    rw [List.filter_eq_self.mpr (fun a ha => by rw [hAHu a ha]; rfl)]
    rw [show dedupAppendH AH (detect_fractals B w).1 = AH from
      dedupFold_eq_self _ _ _ hAHa]
    exact List.Sorted.insertionSort_eq hAHs
  have hY : (dedupAppendL
      (((s1.data symbol interval).getD emptySets).L.filter
        fun f => !(brokenLBy B f))
      (detect_fractals B w).2).insertionSort lKeyLe = AL := by
    rw [h1]
    show (dedupAppendL (AL.filter fun f => !(brokenLBy B f))
      (detect_fractals B w).2).insertionSort lKeyLe = AL
    rw [List.filter_eq_self.mpr (fun a ha => by rw [hALu a ha]; rfl)]
    rw [show dedupAppendL AL (detect_fractals B w).2 = AL from
      dedupFold_eq_self _ _ _ hALa]
    exact List.Sorted.insertionSort_eq hALs
  show htfWriteSets s1 symbol interval _ = s1
  rw [hX, hY]
  exact htfWriteSets_self_eq s1 symbol interval ⟨AH, AL⟩ hdata

/-- C3: reconciliation is idempotent.  Applying `update_storage` a second
time with the same symbol, interval, candle batch and window to the store
produced by the first application returns that store unchanged (in
particular no pivot is duplicated by re-derivation). -/
theorem update_storage_idempotent (st : Store) (symbol interval : String)
    (B : List Candle) (w : Nat) :
    update_storage (update_storage st symbol interval B w) symbol interval B w
      = update_storage st symbol interval B w := by
  apply update_storage_stable
  · exact update_storage_data_self st symbol interval B w
  · intro f hf
    have hmem : f ∈ ((update_storage st symbol interval B w).sets symbol
        interval).H := by
      rw [Store.sets, update_storage_data_self]
      exact hf
    rcases mem_update_storage_H st symbol interval B w f hmem with h | h
    · simpa using (List.mem_filter.mp h).2
    · exact detect_unbroken_H B w f h
  · intro f hf
    have hmem : f ∈ ((update_storage st symbol interval B w).sets symbol
        interval).L := by
      rw [Store.sets, update_storage_data_self]
      exact hf
    rcases mem_update_storage_L st symbol interval B w f hmem with h | h
    · simpa using (List.mem_filter.mp h).2
    · exact detect_unbroken_L B w f h
  · intro f hf
    have hex := dedupFold_exists_match
      (fun (f e : HFractal) => decide (e.time = f.time ∧ e.high = f.high))
      (fun a => by simp)
      (((st.data symbol interval).getD emptySets).H.filter
        fun g => !(brokenHBy B g))
      (detect_fractals B w).1 f hf
    obtain ⟨e, he, hm⟩ := hex
    exact List.any_eq_true.mpr ⟨e, (List.mem_insertionSort hKeyLe).mpr he, hm⟩
  · intro f hf
    have hex := dedupFold_exists_match
      (fun (f e : LFractal) => decide (e.time = f.time ∧ e.low = f.low))
      (fun a => by simp)
      (((st.data symbol interval).getD emptySets).L.filter
        fun g => !(brokenLBy B g))
      (detect_fractals B w).2 f hf
    obtain ⟨e, he, hm⟩ := hex
    exact List.any_eq_true.mpr ⟨e, (List.mem_insertionSort lKeyLe).mpr he, hm⟩
  · exact List.sorted_insertionSort hKeyLe _
  · exact List.sorted_insertionSort lKeyLe _
